import Mathlib

/-!
Verification of the rate/discount formula library in
`src/prything/teaching_notes_1.py`.

The five Python functions are embedded over the reals: Python floats become
`ℝ`, `np.exp`/`np.log` become `Real.exp`/`Real.log`, and `**`/`np.power`
with real operands becomes `Real.rpow`.  The yield curve (a 2-D numpy array
indexed by `r[t, T]`) is modelled as a total function `ℕ → ℕ → ℝ`, and the
maturity schedule as a `List ℕ` whose indexing `T[i]` is modelled by the
fallible `T[i]?` so that numpy's out-of-bounds `IndexError` surfaces as
`none`.  `coupon_bond_price` therefore returns `Option ℝ`.
-/

namespace Prything

/-- `compound(r, n, T, n_infinity)` from `teaching_notes_1.py`:
`exp(r*T)` in the continuous branch, `(1 + r/n)^(n*T)` otherwise. -/
noncomputable def compound (r n T : ℝ) (n_infinity : Bool) : ℝ :=
  if n_infinity then Real.exp (r * T) else (1 + r / n) ^ (n * T)

/-- `discount(r, n, T, n_infinity)` from `teaching_notes_1.py`:
`exp(-r*T)` in the continuous branch, `1/((1 + r/n)^(n*T))` otherwise. -/
noncomputable def discount (r n T : ℝ) (n_infinity : Bool) : ℝ :=
  if n_infinity then Real.exp (-r * T) else 1 / (1 + r / n) ^ (n * T)

/-- `rate_from_discount(n, Z_T, T, n_infinity)` from `teaching_notes_1.py`:
`(-1/T)*log(Z_T)` in the continuous branch,
`n*(1/(Z_T^(1/(n*T))) - 1)` otherwise. -/
noncomputable def rate_from_discount (n Z_T T : ℝ) (n_infinity : Bool) : ℝ :=
  if n_infinity then (-1 / T) * Real.log Z_T
  else n * (1 / Z_T ^ (1 / (n * T)) - 1)

/-- `discount_factor(r, t, T)` from `teaching_notes_1.py`:
`exp(-r[t, T] * (T - t))` where `r` is the yield-curve array. -/
noncomputable def discount_factor (r : ℕ → ℕ → ℝ) (t T : ℕ) : ℝ :=
  Real.exp (-r t T * ((T : ℝ) - (t : ℝ)))

/-- The coupon accumulation loop of `coupon_bond_price`:
`for i in range(1, n): coupon_pmt += (c/freq) / discount(r[t, T[i]], freq,
T[i] - t, n_infinity=False)`, with the array access `T[i]` modelled
fallibly. -/
noncomputable def couponLoop (r : ℕ → ℕ → ℝ) (t : ℕ) (T : List ℕ)
    (c freq : ℝ) : Option ℝ :=
  (List.range' 1 (T.length - 1)).foldlM
    (fun acc i => (T[i]?).map fun Ti =>
      acc + (c / freq) / discount (r t Ti) freq ((Ti : ℝ) - (t : ℝ)) false)
    0

/-- `coupon_bond_price(r, t, T, c, freq, principal)` from
`teaching_notes_1.py`: the coupon loop plus the principal term, which reads
`T[n]` with `n = len(T)`. -/
noncomputable def coupon_bond_price (r : ℕ → ℕ → ℝ) (t : ℕ) (T : List ℕ)
    (c freq principal : ℝ) : Option ℝ :=
  let n := T.length
  (couponLoop r t T c freq).bind fun coupon_pmt =>
    (T[n]?).map fun Tn =>
      coupon_pmt + principal / discount (r t Tn) freq ((Tn : ℝ) - (t : ℝ)) false

/-- The cash-flow term added for index `i` of the maturity schedule
(total form, using `List.getD`; it agrees with the fallible access whenever
`i` is in bounds). -/
noncomputable def couponTerm (r : ℕ → ℕ → ℝ) (t : ℕ) (T : List ℕ)
    (c freq : ℝ) (i : ℕ) : ℝ :=
  (c / freq) / discount (r t (T.getD i 0)) freq ((T.getD i 0 : ℝ) - (t : ℝ)) false

end Prything

namespace Prything

/-- C1: for every yield curve, valuation date, maturity schedule (of any
length `n ≥ 0`), coupon, frequency and principal, `coupon_bond_price` reads
`T[n]` — one past the last valid index — in its principal term, so it
returns `none` (an uncaught out-of-bounds failure) on every input and never
produces a price. -/
theorem coupon_bond_price_always_oob (r : ℕ → ℕ → ℝ) (t : ℕ) (T : List ℕ)
    (c freq principal : ℝ) :
    coupon_bond_price r t T c freq principal = none := by
  have h : T[T.length]? = none := by simp
  unfold coupon_bond_price
  cases hl : couponLoop r t T c freq <;> simp [hl, h]

/-- C10: at horizon zero, with any rate and any positive frequency, both
`compound` and `discount` return `1`, in the continuous branch and in the
discrete branch alike. -/
theorem compound_discount_zero_horizon (r n : ℝ) (c : Bool) (_hn : 0 < n) :
    compound r n 0 c = 1 ∧ discount r n 0 c = 1 := by
  cases c <;>
    simp [compound, discount, mul_zero, Real.rpow_zero, Real.exp_zero]

/-- Witness for C10 at `r = 0.05`, `n = 2`, discrete branch. -/
theorem compound_discount_zero_horizon_witness :
    compound 0.05 2 0 false = 1 ∧ discount 0.05 2 0 false = 1 :=
  compound_discount_zero_horizon 0.05 2 false (by norm_num)

/-- For a positive frequency and a rate above `-n`, the discrete base
`1 + r/n` is positive. -/
lemma one_add_div_pos {r n : ℝ} (hn : 0 < n) (hr : -n < r) : 0 < 1 + r / n := by
  have h1 : -r / n < 1 := (div_lt_one hn).2 (by linarith)
  have h2 : -1 < r / n := by
    rw [neg_lt, ← neg_div]
    exact h1
  linarith

/-- C3: for every rate `r > -n`, frequency `n > 0`, horizon `T` and either
value of the continuous flag, `discount` is the multiplicative inverse of
`compound`: it equals `1 / compound` and their product is `1`, in the
continuous branch and in the discrete branch independently. -/
theorem discount_eq_inv_compound (r n T : ℝ) (c : Bool) (hn : 0 < n)
    (hr : -n < r) :
    discount r n T c = 1 / compound r n T c ∧
      discount r n T c * compound r n T c = 1 := by
  have hb : 0 < 1 + r / n := one_add_div_pos hn hr
  cases c with
  | true =>
    constructor
    · simp [discount, compound, Real.exp_neg, neg_mul, one_div]
    · simp only [discount, compound, if_true]
      have h : -r * T + r * T = 0 := by ring
      rw [← Real.exp_add, h, Real.exp_zero]
  | false =>
    have hp : (0 : ℝ) < (1 + r / n) ^ (n * T) := Real.rpow_pos_of_pos hb _
    constructor
    · simp [discount, compound]
    · simp only [discount, compound, Bool.false_eq_true, if_false]
      rw [one_div, inv_mul_cancel₀ (ne_of_gt hp)]

/-- Witness for C3 at `r = 0.05`, `n = 2`, `T = 3`, discrete branch. -/
theorem discount_eq_inv_compound_witness :
    discount 0.05 2 3 false = 1 / compound 0.05 2 3 false ∧
      discount 0.05 2 3 false * compound 0.05 2 3 false = 1 :=
  discount_eq_inv_compound 0.05 2 3 false (by norm_num) (by norm_num)

/-- C4: round-trip — for every rate `r > -n`, frequency `n > 0`, horizon
`T > 0` and either value of the continuous flag, feeding
`discount r n T c` back through `rate_from_discount` recovers `r` exactly
(the real-number counterpart of recovery within floating-point
tolerance). -/
theorem rate_from_discount_roundtrip (r n T : ℝ) (c : Bool) (hn : 0 < n)
    (hT : 0 < T) (hr : -n < r) :
    rate_from_discount n (discount r n T c) T c = r := by
  have hb : 0 < 1 + r / n := one_add_div_pos hn hr
  cases c with
  | true =>
    simp only [rate_from_discount, discount, if_true]
    rw [Real.log_exp]
    have hT0 : T ≠ 0 := hT.ne'
    field_simp
  | false =>
    simp only [rate_from_discount, discount, Bool.false_eq_true, if_false]
    have ha : n * T ≠ 0 := (mul_pos hn hT).ne'
    have hp : (0 : ℝ) < (1 + r / n) ^ (n * T) := Real.rpow_pos_of_pos hb _
    rw [one_div ((1 + r / n) ^ (n * T)), Real.inv_rpow hp.le,
      ← Real.rpow_mul hb.le, mul_one_div_cancel ha, Real.rpow_one,
      one_div, inv_inv]
    field_simp

/-- Witness for C4 at `r = 0.038`, `n = 2`, `T = 5`, discrete branch. -/
theorem rate_from_discount_roundtrip_witness :
    rate_from_discount 2 (discount 0.038 2 5 false) 5 false = 0.038 :=
  rate_from_discount_roundtrip 0.038 2 5 false (by norm_num) (by norm_num)
    (by norm_num)

/-- Summing a function over the index list `range' s m` is summing over
`Finset.range m` shifted by `s`. -/
lemma sum_map_range' (h : ℕ → ℝ) :
    ∀ m s : ℕ, ((List.range' s m).map h).sum = ∑ i in Finset.range m, h (s + i) := by
  intro m
  induction m with
  | zero => intro s; simp
  | succ m ih =>
    intro s
    rw [List.range'_succ]
    simp only [List.map_cons, List.sum_cons, ih (s + 1), Finset.sum_range_succ']
    have he : ∀ i : ℕ, s + 1 + i = s + (i + 1) := by intro i; omega
    simp only [he, Nat.add_zero]
    ring

/-- A fold of fallible index accesses over indices that are all in bounds
succeeds and returns the accumulator plus the sum of the per-index terms. -/
lemma foldlM_couponStep (T : List ℕ) (g : ℕ → ℝ) :
    ∀ l : List ℕ, (∀ i ∈ l, i < T.length) → ∀ acc : ℝ,
      l.foldlM (fun a i => (T[i]?).map fun Ti => a + g Ti) acc
        = some (acc + (l.map fun i => g (T.getD i 0)).sum) := by
  intro l
  induction l with
  | nil => intro _ acc; simp
  | cons j l ih =>
    intro hmem acc
    have hj : j < T.length := hmem j (List.mem_cons_self j l)
    have hTj : T[j]? = some (T.getD j 0) := by
      rw [List.getElem?_eq_getElem hj, List.getD_eq_getElem T 0 hj]
    simp only [List.foldlM_cons, hTj, Option.map_some', Option.bind_eq_bind,
      Option.some_bind]
    rw [ih (fun i hi => hmem i (List.mem_cons_of_mem j hi))]
    simp [add_assoc]

/-- C2: the coupon accumulation of `coupon_bond_price` succeeds, iterating
the index `i` from `1` to `n - 1` (`n` the number of scheduled maturities)
and thereby skipping the first scheduled coupon at index `0`; for each such
`i` it adds `(c/freq) / discount(r[t, T[i]], freq, T[i] - t, false)`
(`couponTerm`) to the running total. -/
theorem couponLoop_eq_sum (r : ℕ → ℕ → ℝ) (t : ℕ) (T : List ℕ) (c freq : ℝ) :
    couponLoop r t T c freq
      = some (∑ i in Finset.Ico 1 T.length, couponTerm r t T c freq i) := by
  have hmem : ∀ i ∈ List.range' 1 (T.length - 1), i < T.length := by
    intro i hi
    rw [List.mem_range'] at hi
    obtain ⟨j, hj, rfl⟩ := hi
    omega
  unfold couponLoop
  rw [foldlM_couponStep T
      (fun Ti => (c / freq) / discount (r t Ti) freq ((Ti : ℝ) - (t : ℝ)) false)
      (List.range' 1 (T.length - 1)) hmem 0, zero_add,
    sum_map_range' (fun i =>
      (c / freq) / discount (r t (T.getD i 0)) freq ((T.getD i 0 : ℝ) - (t : ℝ)) false)
      (T.length - 1) 1,
    Finset.sum_Ico_eq_sum_range]
  rfl

/-- C5: `compound` returns `exp(r*T)` in the continuous branch and
`(1 + r/n)^(n*T)` otherwise; the frequency argument is irrelevant in the
continuous branch; and `compound 0.05 1 10 false` is approximately
`1.6289`. -/
theorem compound_spec (r n m T : ℝ) :
    compound r n T true = Real.exp (r * T) ∧
    compound r n T false = (1 + r / n) ^ (n * T) ∧
    compound r n T true = compound r m T true ∧
    |compound 0.05 1 10 false - 1.6289| < 0.0001 := by
  refine ⟨rfl, rfl, rfl, ?_⟩
  have h : compound 0.05 1 10 false = (1.05 : ℝ) ^ (10 : ℕ) := by
    simp only [compound, Bool.false_eq_true, if_false]
    rw [show ((1 : ℝ) * 10) = ((10 : ℕ) : ℝ) by norm_num, Real.rpow_natCast]
    norm_num
  rw [h, abs_lt]
  constructor <;> norm_num

/-- Taylor lower bound: `1.0618 ≤ exp 0.06`. -/
lemma exp_006_lb : (1.0618 : ℝ) ≤ Real.exp 0.06 := by
  have h := Real.sum_le_exp_of_nonneg (show (0 : ℝ) ≤ 0.06 by norm_num) 3
  norm_num [Finset.sum_range_succ, Nat.factorial] at h
  linarith

/-- Taylor upper bound: `exp 0.06 ≤ 1.06185`. -/
lemma exp_006_ub : Real.exp 0.06 ≤ (1.06185 : ℝ) := by
  have h := @Real.exp_bound' 0.06 (by norm_num) (by norm_num) 3 (by norm_num)
  norm_num [Finset.sum_range_succ, Nat.factorial] at h
  linarith

/-- Taylor upper bound: `exp 0.10285 ≤ 1.1084`. -/
lemma exp_010285_ub : Real.exp 0.10285 ≤ (1.1084 : ℝ) := by
  have h := @Real.exp_bound' 0.10285 (by norm_num) (by norm_num) 3 (by norm_num)
  norm_num [Finset.sum_range_succ, Nat.factorial] at h
  linarith

/-- Taylor lower bound: `1.1136 ≤ exp 0.10785`. -/
lemma exp_010785_lb : (1.1136 : ℝ) ≤ Real.exp 0.10785 := by
  have h := Real.sum_le_exp_of_nonneg (show (0 : ℝ) ≤ 0.10785 by norm_num) 3
  norm_num [Finset.sum_range_succ, Nat.factorial] at h
  linarith

/-- The literal yield curve of the C6 scenario: `curve[1][3] = 0.03`. -/
noncomputable def exampleCurve : ℕ → ℕ → ℝ :=
  fun t T => if t = 1 ∧ T = 3 then 0.03 else 0

/-- C6: `discount_factor` returns `exp(-curve[t,T] * (T - t))` for every
curve, and on the literal curve with `curve[1][3] = 0.03`, `t = 1`,
`T = 3` it returns `exp(-0.06)`, which is approximately `0.9418`. -/
theorem discount_factor_spec :
    (∀ (r : ℕ → ℕ → ℝ) (t T : ℕ),
      discount_factor r t T = Real.exp (-r t T * ((T : ℝ) - (t : ℝ)))) ∧
    discount_factor exampleCurve 1 3 = Real.exp (-0.06) ∧
    |Real.exp (-(0.06 : ℝ)) - 0.9418| < 0.001 := by
  refine ⟨fun r t T => rfl, ?_, ?_⟩
  · unfold discount_factor exampleCurve
    norm_num
  · have h1 : ((1.06185 : ℝ))⁻¹ ≤ (Real.exp 0.06)⁻¹ :=
      inv_anti₀ (Real.exp_pos _) exp_006_ub
    have h2 : (Real.exp 0.06)⁻¹ ≤ ((1.0618 : ℝ))⁻¹ :=
      inv_anti₀ (by norm_num) exp_006_lb
    have h3 : (0.9408 : ℝ) < ((1.06185 : ℝ))⁻¹ := by norm_num
    have h4 : ((1.0618 : ℝ))⁻¹ < (0.9428 : ℝ) := by norm_num
    rw [Real.exp_neg, abs_lt]
    constructor <;> linarith

/-- C7: `rate_from_discount` returns `(-1/T) * ln Z` in the continuous
branch and `n * (Z^(-1/(n*T)) - 1)` in the discrete branch (for a positive
discount factor); `rate_from_discount 1 0.9 5 true` equals
`(-1/5) * ln 0.9`, approximately `0.02107`. -/
theorem rate_from_discount_spec :
    (∀ n Z T : ℝ, rate_from_discount n Z T true = -1 / T * Real.log Z) ∧
    (∀ n Z T : ℝ, 0 < Z →
      rate_from_discount n Z T false = n * (Z ^ (-(1 / (n * T))) - 1)) ∧
    rate_from_discount 1 0.9 5 true = -1 / 5 * Real.log 0.9 ∧
    |rate_from_discount 1 0.9 5 true - 0.02107| < 0.0005 := by
  refine ⟨fun n Z T => rfl, ?_, rfl, ?_⟩
  · intro n Z T hZ
    simp only [rate_from_discount, Bool.false_eq_true, if_false]
    rw [Real.rpow_neg hZ.le, one_div]
  · have h1 : Real.log 0.9 < -0.10285 := by
      have h9 : (0.9 : ℝ) = ((10 : ℝ) / 9)⁻¹ := by norm_num
      rw [h9, Real.log_inv]
      have h : (0.10285 : ℝ) < Real.log (10 / 9) :=
        (Real.lt_log_iff_exp_lt (by norm_num)).2
          (lt_of_le_of_lt exp_010285_ub (by norm_num))
      linarith
    have h2 : (-0.10785 : ℝ) < Real.log 0.9 := by
      have h9 : (0.9 : ℝ) = ((10 : ℝ) / 9)⁻¹ := by norm_num
      rw [h9, Real.log_inv]
      have h : Real.log (10 / 9) < 0.10785 :=
        (Real.log_lt_iff_lt_exp (by norm_num)).2
          (lt_of_lt_of_le (by norm_num) exp_010785_lb)
      linarith
    have he : rate_from_discount 1 0.9 5 true = -1 / 5 * Real.log 0.9 := rfl
    rw [he, abs_lt]
    constructor <;> linarith

/-- Witness for the discrete conjunct of C7 at `n = 2`, `Z = 0.5`,
`T = 3`. -/
theorem rate_from_discount_spec_witness :
    rate_from_discount 2 0.5 3 false
      = 2 * ((0.5 : ℝ) ^ (-(1 / ((2 : ℝ) * 3))) - 1) :=
  rate_from_discount_spec.2.1 2 0.5 3 (by norm_num)

end Prything
